import Mathlib

/-!
Verification of the `id-vec` crate: a dense arena (`IdVec<T>`) storing a
packed vector of elements together with a hash set of currently unused
(dead) indices, plus the pluggable `ElementMarker` occupancy trackers.

Embedding conventions, mirroring `src/vec.rs`, `src/id.rs` and
`src/element_marker/hash_set_marker.rs`:

* `Vec<T>` is `List T`; `Id<T>` is its raw `Index` (`usize`), a `Nat`
  (the phantom type parameter has no runtime content).
* `HashSet<Index>` is a duplicate-free `List Nat` in an unspecified
  order; `iter().next()` is `List.head?`, `insert` prepends when absent
  (an arbitrary spot of the unspecified order), `remove` is
  `List.erase`, `contains` is membership.  All universally quantified
  theorems below range over every list, hence over every possible hash
  iteration order.
* Rust loops are modelled by structural recursion on an explicit fuel
  argument chosen at the call site; for each loop the fuel used is
  proven (or visibly) sufficient, so exhaustion coincides with the
  loop's own exit condition, except in `pack` where insufficient fuel
  returns `none` and models the divergence the Rust code would exhibit
  if a stale out-of-range index stayed in the set forever.
* `usize` subtraction appears only as `Nat` truncated subtraction in
  the same places the source computes `len - 1` style expressions.
-/

/-- Model of `IdVec<T>` of `src/vec.rs`: the dense `elements` vector (alive and
dead slots mixed) and the `unused_indices` hash set. -/
structure IdVec (T : Type) : Type where
  elements : List T
  unused_indices : List Nat
deriving Repr, DecidableEq

namespace IdVec

variable {T : Type}

/-- Model of `HashSet::insert` (state part): prepend when not yet present. -/
def hs_insert (s : List Nat) (i : Nat) : List Nat :=
  if i ∈ s then s else i :: s

/-- Model of `IdVec::from_vec`: wrap a vector, no deleted elements. -/
def from_vec (elements : List T) : IdVec T :=
  { elements := elements, unused_indices := [] }

/-- Model of `IdVec::new` (= `with_capacity 0` = `from_vec` of the empty vector). -/
def new : IdVec T := from_vec []

/-- Model of `IdVec::index_is_currently_used`: fast path `index + 1 == len`
(the last element is always used), else not in the unused set. -/
def index_is_currently_used (v : IdVec T) (index : Nat) : Prop :=
  index + 1 = v.elements.length ∨ index ∉ v.unused_indices

instance (v : IdVec T) (index : Nat) : Decidable (index_is_currently_used v index) := by
  unfold index_is_currently_used; infer_instance

/-- Model of `IdVec::index_is_in_range`. -/
def index_is_in_range (v : IdVec T) (index : Nat) : Prop :=
  index < v.elements.length

instance (v : IdVec T) (index : Nat) : Decidable (index_is_in_range v index) := by
  unfold index_is_in_range; infer_instance

/-- Model of `IdVec::contains_id`. -/
def contains_id (v : IdVec T) (index : Nat) : Prop :=
  index_is_in_range v index ∧ index_is_currently_used v index

instance (v : IdVec T) (index : Nat) : Decidable (contains_id v index) := by
  unfold contains_id; infer_instance

/-- Model of `IdVec::len`: element count minus unused count (`usize` subtraction). -/
def len (v : IdVec T) : Nat :=
  v.elements.length - v.unused_indices.length

/-- Model of `IdVec::is_empty`. -/
def is_empty (v : IdVec T) : Prop := len v = 0

instance (v : IdVec T) : Decidable (is_empty v) := by
  unfold is_empty; infer_instance

/-- Model of `IdVec::is_packed`: the unused set is empty. -/
def is_packed (v : IdVec T) : Prop := v.unused_indices = []

instance (v : IdVec T) : Decidable (is_packed v) := by
  unfold is_packed; infer_instance

/-- Model of `IdVec::clear`. -/
def clear (_v : IdVec T) : IdVec T :=
  { elements := [], unused_indices := [] }

/-- Loop body of `IdVec::pop_back_unused`:
`while !elements.is_empty() && unused_indices.remove(&(elements.len()-1))
 { elements.pop(); }`.
One fuel unit per iteration; each iteration removes one member of the
unused set, so fuel `s.length` is exact: at fuel `0` the set is empty
and the loop condition is false anyway. -/
def pop_back_unused_loop : Nat → List T → List Nat → List T × List Nat
  | 0, e, s => (e, s)
  | fuel + 1, e, s =>
    if 0 < e.length ∧ (e.length - 1) ∈ s then
      pop_back_unused_loop fuel e.dropLast (s.erase (e.length - 1))
    else (e, s)

/-- Model of `IdVec::pop_back_unused`: full clear when every element is unused,
otherwise pop unused elements off the tail. -/
def pop_back_unused (v : IdVec T) : IdVec T :=
  if v.elements.length = v.unused_indices.length then clear v
  else
    let (e, s) := pop_back_unused_loop v.unused_indices.length v.elements v.unused_indices
    { elements := e, unused_indices := s }

/-- Model of `IdVec::remove`: no-op when out of range; direct truncation (plus
cascade) when removing the last slot; otherwise insert into the unused
set. -/
def remove (v : IdVec T) (index : Nat) : IdVec T :=
  if index_is_in_range v index then
    if index + 1 = v.elements.length then
      pop_back_unused { elements := v.elements.dropLast, unused_indices := v.unused_indices }
    else
      { elements := v.elements, unused_indices := hs_insert v.unused_indices index }
  else v

/-- Model of `IdVec::pop`: `elements.pop()` mapped to `(Id(new_len), element)`,
then `pop_back_unused`. -/
def pop (v : IdVec T) : IdVec T × Option (Nat × T) :=
  match v.elements.getLast? with
  | none =>
    (pop_back_unused v, none)
  | some x =>
    (pop_back_unused { elements := v.elements.dropLast, unused_indices := v.unused_indices },
     some (v.elements.length - 1, x))

/-- Model of `IdVec::insert`: reuse an arbitrary unused index (the hash set's
first, here the list head) by overwriting in place, else push to the
end.  Returns the new state and the returned `Id`. -/
def insert (v : IdVec T) (element : T) : IdVec T × Nat :=
  match v.unused_indices.head? with
  | some previously_unused_index =>
    ({ elements := v.elements.set previously_unused_index element,
       unused_indices := v.unused_indices.erase previously_unused_index },
     previously_unused_index)
  | none =>
    ({ elements := v.elements ++ [element], unused_indices := v.unused_indices },
     v.elements.length)

/-- Model of `IdVec::get`: `Some` only for a currently used, in-range index
(`Vec::get` performs the range check). -/
def get (v : IdVec T) (index : Nat) : Option T :=
  if index_is_currently_used v index then v.elements[index]? else none

/-- Scan loop of `IdVec::retain`: `for index in 0..elements.len()`,
tombstoning each alive index whose predicate evaluates to `true`
(the unnegated condition of the source).  Fuel is the iteration count
`elements.len()`, structurally exact. -/
def retain_loop (predicate : Nat → T → Bool) (elements : List T) :
    Nat → Nat → List Nat → List Nat
  | 0, _, s => s
  | fuel + 1, index, s =>
    let s' :=
      match elements[index]? with
      | some x => if index ∉ s ∧ predicate index x then hs_insert s index else s
      | none => s
    retain_loop predicate elements fuel (index + 1) s'

/-- Model of `IdVec::retain`: scan, then `pop_back_unused`. -/
def retain (v : IdVec T) (predicate : Nat → T → Bool) : IdVec T :=
  pop_back_unused
    { elements := v.elements,
      unused_indices := retain_loop predicate v.elements v.elements.length 0 v.unused_indices }

/-- Model of `Vec::swap` on the two positions (both in range whenever the source
calls it; out of range the source would panic, modelled as the
unreachable identity). -/
def list_swap (l : List T) (i j : Nat) : List T :=
  match l[i]?, l[j]? with
  | some a, some b => (l.set i b).set j a
  | _, _ => l

/-- Inner cascade of `IdVec::pack`:
`while unused_indices.remove(&(elements.len()-1)) { elements.pop(); }`
(no emptiness guard in the source; under the arena invariant the vector
never empties here).  Fuel `s.length` is exact as in
`pop_back_unused_loop`. -/
def pack_inner : Nat → List T → List Nat → List T × List Nat
  | 0, e, s => (e, s)
  | fuel + 1, e, s =>
    if (e.length - 1) ∈ s then
      pack_inner fuel e.dropLast (s.erase (e.length - 1))
    else (e, s)

/-- Outer loop of `IdVec::pack`: repeatedly take an arbitrary unused
index (the hash set's first, here the model list's head), swap the last
element into it, record the remap pair, pop, and
cascade.  Returns the final elements plus the remap pairs in call
order; `none` when fuel runs out, which models the divergence the Rust
loop would exhibit on a state where the picked index is never removed
(unreachable from well-formed arenas). -/
def pack_loop : Nat → List T → List Nat → Option (List T × List (Nat × Nat))
  | 0, _, _ => none
  | fuel + 1, e, s =>
    match s with
    | [] => some (e, [])
    | unused_index :: rest =>
      if unused_index < e.length then
        let last_used_element_index := e.length - 1
        let e1 := list_swap e last_used_element_index unused_index
        let s1 := (unused_index :: rest).erase unused_index
        let e2 := e1.dropLast
        let p := pack_inner s1.length e2 s1
        match pack_loop fuel p.1 p.2 with
        | some q => some (q.1, (last_used_element_index, unused_index) :: q.2)
        | none => none
      else pack_loop fuel e (unused_index :: rest)

/-- Model of `IdVec::pack`: the unused set is moved out (leaving the arena's set
empty) and consumed by the loop; `shrink_to_fit` at the end has no
semantic effect.  The remap callback is modelled by returning the list
of `(old, new)` pairs it would be invoked with. -/
def pack (v : IdVec T) : Option (IdVec T × List (Nat × Nat)) :=
  (pack_loop (v.unused_indices.length + 1) v.elements v.unused_indices).map
    (fun p => ({ elements := p.1, unused_indices := [] }, p.2))

/-! ### Iteration subsystem (`iter_next` / `iter_next_back`, `Iter`) -/

/-- Skip loop of `iter_next`: advance the front cursor past unused
indices.  Fuel `b - f` is exact: the cursor never passes `b`. -/
def skip_front (s : List Nat) : Nat → Nat → Nat → Nat
  | 0, f, _ => f
  | fuel + 1, f, b =>
    if f < b ∧ f ∈ s then skip_front s fuel (f + 1) b else f

/-- Model of `iter_next` of `src/vec.rs`: skip unused indices, consume the next
index, yield it when still before the back cursor.  Returns
(yielded index, new front, new back). -/
def iter_next (f b : Nat) (s : List Nat) : Option Nat × Nat × Nat :=
  let f' := skip_front s (b - f) f b
  if f' < b then (some f', f' + 1, b) else (none, f' + 1, b)

/-- Skip loop of `iter_next_back`: retreat the back cursor past unused
indices. -/
def skip_back (s : List Nat) : Nat → Nat → Nat → Nat
  | 0, _, b => b
  | fuel + 1, f, b =>
    if f < b ∧ (b - 1) ∈ s then skip_back s fuel f (b - 1) else b

/-- Model of `iter_next_back` of `src/vec.rs`. -/
def iter_next_back (f b : Nat) (s : List Nat) : Option Nat × Nat × Nat :=
  let b' := skip_back s (b - f) f b
  if f < b' then (some (b' - 1), f, b' - 1) else (none, f, b')

/-- Indices produced by exhausting the iterator forward.  Fuel
`b - f`: at most that many items can be yielded, and once the front
cursor reaches the back cursor the real iterator yields `none`, which
coincides with fuel exhaustion. -/
def collect_forward (s : List Nat) : Nat → Nat → Nat → List Nat
  | 0, _, _ => []
  | fuel + 1, f, b =>
    match iter_next f b s with
    | (some i, f', b') => i :: collect_forward s fuel f' b'
    | (none, _, _) => []

/-- Indices produced by exhausting the iterator backward. -/
def collect_backward (s : List Nat) : Nat → Nat → Nat → List Nat
  | 0, _, _ => []
  | fuel + 1, f, b =>
    match iter_next_back f b s with
    | (some i, f', b') => i :: collect_backward s fuel f' b'
    | (none, _, _) => []

/-- All indices yielded by `IdVec::iter` (front cursor `0`, back cursor
`elements.len()`). -/
def forward_ids (v : IdVec T) : List Nat :=
  collect_forward v.unused_indices v.elements.length 0 v.elements.length

/-- All indices yielded by `IdVec::iter` driven only via `next_back`. -/
def backward_ids (v : IdVec T) : List Nat :=
  collect_backward v.unused_indices v.elements.length 0 v.elements.length

/-- Pairs `(Id, element)` of forward iteration (`Iter::next` yields
`(id, &storage[id])`). -/
def forward_pairs (v : IdVec T) : List (Nat × T) :=
  (forward_ids v).filterMap (fun i => (v.elements[i]?).map (fun x => (i, x)))

/-- Pairs `(Id, element)` of backward iteration. -/
def backward_pairs (v : IdVec T) : List (Nat × T) :=
  (backward_ids v).filterMap (fun i => (v.elements[i]?).map (fun x => (i, x)))

/-- Elements yielded by `IdVec::elements` (the pair iterator projected
to elements). -/
def elements_list (v : IdVec T) : List T :=
  (forward_pairs v).map Prod.snd

/-- The alive slots: in-range indices not in the unused set, ascending. -/
def alive_ids (v : IdVec T) : List Nat :=
  (List.range v.elements.length).filter (fun i => decide (i ∉ v.unused_indices))

/-! ### Draining iterator (`DrainElements`) -/

/-- The fields of `DrainElements`: the pending `vec::Drain` iterator,
the (mutably borrowed) unused set, the snapshot length and the cursor. -/
structure DrainElements (T : Type) : Type where
  iter : List T
  unused_ids : List Nat
  exclusive_max_index : Nat
  next_index : Nat

/-- Skip loop of `DrainElements::next`:
`while unused_ids.remove(&next_index) { next_index += 1; iter.next(); }`. -/
def drain_skip : Nat → DrainElements T → DrainElements T
  | 0, st => st
  | fuel + 1, st =>
    if st.next_index ∈ st.unused_ids then
      drain_skip fuel
        { st with
          unused_ids := st.unused_ids.erase st.next_index,
          next_index := st.next_index + 1,
          iter := st.iter.tail }
    else st

/-- Model of `DrainElements::next`. -/
def drain_next (st : DrainElements T) : Option T × DrainElements T :=
  let st := drain_skip st.unused_ids.length st
  if st.next_index < st.exclusive_max_index then
    match st.iter with
    | x :: rest =>
      (some x, { st with next_index := st.next_index + 1, iter := rest })
    | [] => (none, st)
  else (none, st)

/-- Model of `IdVec::drain_elements`: build the draining iterator state. -/
def drain_elements (v : IdVec T) : DrainElements T :=
  { iter := v.elements, unused_ids := v.unused_indices,
    exclusive_max_index := v.elements.length, next_index := 0 }

/-- Consume up to `k` items from the draining iterator. -/
def drain_take : Nat → DrainElements T → List T × DrainElements T
  | 0, st => ([], st)
  | k + 1, st =>
    match drain_next st with
    | (some x, st') =>
      let (xs, st'') := drain_take k st'
      (x :: xs, st'')
    | (none, st') => ([], st')

/-- Dropping `DrainElements`: `vec::Drain` removes every remaining
element of the backing vector when dropped (std semantics), and the
`Drop` impl in `src/vec.rs` clears the borrowed unused set. -/
def drain_drop (_st : DrainElements T) : IdVec T :=
  { elements := [], unused_indices := [] }

/-- Create a draining iterator, consume only `k` items, then drop it:
the abandoned drain of claim C9.  Returns the arena left behind and
the items that were consumed. -/
def drain_and_abort (v : IdVec T) (k : Nat) : IdVec T × List T :=
  let (taken, st) := drain_take k (drain_elements v)
  (drain_drop st, taken)

/-! ### Occupancy trackers (`element_marker`) -/

/-- Model of `HashSetElementMarker` of
`src/element_marker/hash_set_marker.rs`. -/
structure HashSetElementMarker : Type where
  unused_indices : List Nat
deriving Repr, DecidableEq

/-- Model of `HashSetElementMarker::element_is_used`: not in the unused set. -/
def hash_marker_element_is_used (m : HashSetElementMarker) (index : Nat) : Prop :=
  index ∉ m.unused_indices

instance (m : HashSetElementMarker) (index : Nat) :
    Decidable (hash_marker_element_is_used m index) := by
  unfold hash_marker_element_is_used; infer_instance

/-- Model of `HashSetElementMarker::mark_element_used`: when marking used,
`HashSet::remove` (returns whether the index was present, i.e. unused);
when marking unused, `HashSet::insert` (returns whether it was absent,
i.e. used).  Returns the new marker and the returned boolean. -/
def hash_marker_mark_element_used (m : HashSetElementMarker) (index : Nat)
    (used : Bool) : HashSetElementMarker × Bool :=
  if used then
    ({ unused_indices := m.unused_indices.erase index },
     decide (index ∈ m.unused_indices))
  else
    ({ unused_indices := hs_insert m.unused_indices index },
     decide (index ∉ m.unused_indices))

/-! ### Well-formedness and reachability -/

/-- The arena invariant maintained by every operation: the unused set
is duplicate-free (it models a `HashSet`) and only mentions in-range
indices that are not the last slot (invariants I1 and I2 of the spec,
and the documented guarantee on the `unused_indices` field). -/
def Wf (v : IdVec T) : Prop :=
  v.unused_indices.Nodup ∧ ∀ i ∈ v.unused_indices, i + 1 < v.elements.length

instance (v : IdVec T) : Decidable (Wf v) := by
  unfold Wf; infer_instance

/-- Arena states reachable from a construction through the public
mutating API. -/
inductive Reachable : IdVec T → Prop
  | from_vec (l : List T) : Reachable (from_vec l)
  | insert (v : IdVec T) (w : T) : Reachable v → Reachable (IdVec.insert v w).1
  | remove (v : IdVec T) (i : Nat) : Reachable v → Reachable (IdVec.remove v i)
  | pop (v : IdVec T) : Reachable v → Reachable (IdVec.pop v).1
  | retain (v : IdVec T) (p : Nat → T → Bool) : Reachable v → Reachable (IdVec.retain v p)
  | clear (v : IdVec T) : Reachable v → Reachable (IdVec.clear v)
  | pack (v v' : IdVec T) (remaps : List (Nat × Nat)) :
      Reachable v → IdVec.pack v = some (v', remaps) → Reachable v'

end IdVec

namespace IdVec

variable {T : Type}

/-! ### Branch-unfolding equations for the branchy operations -/

theorem insert_reuse {v : IdVec T} {i : Nat} (h : v.unused_indices.head? = some i) (w : T) :
    insert v w =
      ({ elements := v.elements.set i w,
         unused_indices := v.unused_indices.erase i }, i) := by
  unfold insert
  rw [h]

theorem insert_append {v : IdVec T} (h : v.unused_indices.head? = none) (w : T) :
    insert v w =
      ({ elements := v.elements ++ [w],
         unused_indices := v.unused_indices }, v.elements.length) := by
  unfold insert
  rw [h]

theorem pop_empty {v : IdVec T} (h : v.elements.getLast? = none) :
    pop v = (pop_back_unused v, none) := by
  unfold pop
  rw [h]

theorem pop_last {v : IdVec T} {x : T} (h : v.elements.getLast? = some x) :
    pop v = (pop_back_unused { elements := v.elements.dropLast,
                               unused_indices := v.unused_indices },
             some (v.elements.length - 1, x)) := by
  unfold pop
  rw [h]

theorem pop_back_unused_eq (e : List T) (s : List Nat) :
    pop_back_unused { elements := e, unused_indices := s } =
      if e.length = s.length then { elements := [], unused_indices := [] }
      else { elements := (pop_back_unused_loop s.length e s).1,
             unused_indices := (pop_back_unused_loop s.length e s).2 } := by
  unfold pop_back_unused clear
  by_cases h : e.length = s.length
  · simp [h]
  · simp only [if_neg h]

/-! ### Helper lemmas: the hash-set model -/

theorem hs_insert_mem {s : List Nat} {i j : Nat} :
    j ∈ hs_insert s i ↔ j = i ∨ j ∈ s := by
  unfold hs_insert
  by_cases h : i ∈ s
  · simp only [if_pos h]
    constructor
    · exact Or.inr
    · rintro (rfl | hj)
      · exact h
      · exact hj
  · simp [if_neg h]

theorem hs_insert_nodup {s : List Nat} {i : Nat} (h : s.Nodup) :
    (hs_insert s i).Nodup := by
  unfold hs_insert
  by_cases hm : i ∈ s
  · simpa [if_pos hm] using h
  · simpa [if_neg hm, List.nodup_cons] using ⟨hm, h⟩

theorem hs_insert_of_mem {s : List Nat} {i : Nat} (h : i ∈ s) :
    hs_insert s i = s := by
  unfold hs_insert
  exact if_pos h

/-! ### Helper lemmas: `pop_back_unused` -/

theorem pop_back_unused_loop_spec {T : Type} :
    ∀ (fuel : Nat) (e : List T) (s : List Nat), s.length ≤ fuel → s.Nodup →
      (∀ i ∈ s, i < e.length) →
      ((pop_back_unused_loop fuel e s).2.Nodup ∧
       (pop_back_unused_loop fuel e s).2 ⊆ s ∧
       (∀ i ∈ (pop_back_unused_loop fuel e s).2,
          i + 1 < (pop_back_unused_loop fuel e s).1.length) ∧
       (pop_back_unused_loop fuel e s).1.length ≤ e.length) := by
  intro fuel
  induction fuel with
  | zero =>
    intro e s hfuel hnd hlt
    have hs : s = [] := List.eq_nil_of_length_eq_zero (Nat.le_zero.mp hfuel)
    subst hs
    simp [pop_back_unused_loop]
  | succ fuel ih =>
    intro e s hfuel hnd hlt
    by_cases hcond : 0 < e.length ∧ (e.length - 1) ∈ s
    · have hstep : pop_back_unused_loop (fuel + 1) e s =
          pop_back_unused_loop fuel e.dropLast (s.erase (e.length - 1)) := by
        simp [pop_back_unused_loop, if_pos hcond]
      have hlen : (s.erase (e.length - 1)).length = s.length - 1 :=
        List.length_erase_of_mem hcond.2
      have hslen : 1 ≤ s.length := List.length_pos.mpr (List.ne_nil_of_mem hcond.2)
      have hdl : e.dropLast.length = e.length - 1 := List.length_dropLast e
      have hrec := ih e.dropLast (s.erase (e.length - 1))
        (by omega)
        (hnd.erase _)
        (by
          intro i hi
          have hi' := (hnd.mem_erase_iff).mp hi
          have h1 : i < e.length := hlt i hi'.2
          have h2 : i ≠ e.length - 1 := hi'.1
          omega)
      rw [hstep]
      refine ⟨hrec.1, ?_, hrec.2.2.1, ?_⟩
      · exact fun i hi => List.erase_subset _ _ (hrec.2.1 hi)
      · omega
    · have hstep : pop_back_unused_loop (fuel + 1) e s = (e, s) := by
        simp only [pop_back_unused_loop, if_neg hcond]
      rw [hstep]
      refine ⟨hnd, fun i hi => hi, ?_, Nat.le_refl _⟩
      intro i hi
      have hi' : i ∈ s := hi
      have h1 : i < e.length := hlt i hi'
      show i + 1 < e.length
      by_cases h0 : 0 < e.length
      · have hnm : (e.length - 1) ∉ s := fun hm => hcond ⟨h0, hm⟩
        have : i ≠ e.length - 1 := fun heq => hnm (heq ▸ hi')
        omega
      · omega

theorem pop_back_unused_spec (e : List T) (s : List Nat)
    (hnd : s.Nodup) (hlt : ∀ i ∈ s, i < e.length) :
    Wf (pop_back_unused { elements := e, unused_indices := s }) ∧
    (pop_back_unused { elements := e, unused_indices := s }).elements.length ≤ e.length ∧
    (pop_back_unused { elements := e, unused_indices := s }).unused_indices ⊆ s := by
  rw [pop_back_unused_eq]
  by_cases hc : e.length = s.length
  · simp only [if_pos hc]
    refine ⟨⟨List.nodup_nil, ?_⟩, ?_, ?_⟩
    · intro i hi
      simp at hi
    · simp
    · intro i hi
      simp at hi
  · simp only [if_neg hc]
    have h := pop_back_unused_loop_spec s.length e s (Nat.le_refl _) hnd hlt
    exact ⟨⟨h.1, h.2.2.1⟩, h.2.2.2, h.2.1⟩

/-! ### Well-formedness preservation -/

theorem wf_from_vec (l : List T) : Wf (from_vec l) := by
  refine ⟨List.nodup_nil, ?_⟩
  intro i hi
  simp [from_vec] at hi

theorem wf_clear (v : IdVec T) : Wf (clear v) := by
  refine ⟨List.nodup_nil, ?_⟩
  intro i hi
  simp [clear] at hi

theorem wf_insert {v : IdVec T} (h : Wf v) (w : T) : Wf (insert v w).1 := by
  cases hh : v.unused_indices.head? with
  | some i =>
    rw [insert_reuse hh]
    refine ⟨h.1.erase i, ?_⟩
    intro j hj
    have hj' : j ∈ v.unused_indices := List.erase_subset _ _ hj
    have := h.2 j hj'
    simpa [List.length_set] using this
  | none =>
    rw [insert_append hh]
    refine ⟨h.1, ?_⟩
    intro j hj
    have := h.2 j hj
    simp only [List.length_append, List.length_cons, List.length_nil]
    omega

theorem wf_remove {v : IdVec T} (h : Wf v) (index : Nat) : Wf (remove v index) := by
  unfold remove
  by_cases hr : index_is_in_range v index
  · by_cases hl : index + 1 = v.elements.length
    · rw [if_pos hr, if_pos hl]
      have hlt : ∀ i ∈ v.unused_indices, i < v.elements.dropLast.length := by
        intro i hi
        have := h.2 i hi
        have h3 : v.elements.dropLast.length = v.elements.length - 1 := List.length_dropLast _
        omega
      exact (pop_back_unused_spec v.elements.dropLast v.unused_indices h.1 hlt).1
    · rw [if_pos hr, if_neg hl]
      refine ⟨hs_insert_nodup h.1, ?_⟩
      intro i hi
      rcases hs_insert_mem.mp hi with heq | hi'
      · have hr' : index < v.elements.length := hr
        show i + 1 < v.elements.length
        omega
      · exact h.2 i hi'
  · rw [if_neg hr]
    exact h

theorem wf_pop {v : IdVec T} (h : Wf v) : Wf (pop v).1 := by
  cases hl : v.elements.getLast? with
  | none =>
    rw [pop_empty hl]
    have hlt : ∀ i ∈ v.unused_indices, i < v.elements.length := by
      intro i hi
      have := h.2 i hi
      omega
    exact (pop_back_unused_spec v.elements v.unused_indices h.1 hlt).1
  | some x =>
    rw [pop_last hl]
    have hlt : ∀ i ∈ v.unused_indices, i < v.elements.dropLast.length := by
      intro i hi
      have := h.2 i hi
      have h3 : v.elements.dropLast.length = v.elements.length - 1 := List.length_dropLast _
      omega
    exact (pop_back_unused_spec v.elements.dropLast v.unused_indices h.1 hlt).1

theorem retain_loop_spec {T : Type} (p : Nat → T → Bool) (e : List T) :
    ∀ (fuel idx : Nat) (s : List Nat), s.Nodup → (∀ i ∈ s, i < e.length) →
      ((retain_loop p e fuel idx s).Nodup ∧
       ∀ i ∈ retain_loop p e fuel idx s, i < e.length) := by
  intro fuel
  induction fuel with
  | zero =>
    intro idx s hnd hlt
    exact ⟨hnd, hlt⟩
  | succ fuel ih =>
    intro idx s hnd hlt
    simp only [retain_loop]
    cases hg : e[idx]? with
    | none => exact ih (idx + 1) s hnd hlt
    | some x =>
      by_cases hc : idx ∉ s ∧ p idx x
      · simp only [if_pos hc]
        have hidx : idx < e.length := by
          by_contra hge
          rw [List.getElem?_eq_none (Nat.le_of_not_lt hge)] at hg
          exact Option.noConfusion hg
        refine ih (idx + 1) (hs_insert s idx) (hs_insert_nodup hnd) ?_
        intro i hi
        rcases hs_insert_mem.mp hi with heq | hi'
        · subst heq
          exact hidx
        · exact hlt i hi'
      · simp only [if_neg hc]
        exact ih (idx + 1) s hnd hlt

theorem wf_retain {v : IdVec T} (h : Wf v) (p : Nat → T → Bool) : Wf (retain v p) := by
  unfold retain
  have hlt : ∀ i ∈ v.unused_indices, i < v.elements.length := by
    intro i hi
    have := h.2 i hi
    omega
  have hloop := retain_loop_spec p v.elements v.elements.length 0 v.unused_indices h.1 hlt
  exact (pop_back_unused_spec v.elements _ hloop.1 hloop.2).1

theorem wf_pack {v v' : IdVec T} {remaps : List (Nat × Nat)}
    (h : pack v = some (v', remaps)) : Wf v' := by
  unfold pack at h
  cases hp : pack_loop (v.unused_indices.length + 1) v.elements v.unused_indices with
  | none =>
    rw [hp] at h
    simp at h
  | some p =>
    rw [hp] at h
    have h' : ({ elements := p.1, unused_indices := [] : IdVec T }, p.2) = (v', remaps) := by
      simpa using h
    obtain ⟨h1, h2⟩ := Prod.mk.injEq .. |>.mp h'
    rw [← h1]
    refine ⟨List.nodup_nil, ?_⟩
    intro i hi
    simp at hi

theorem reachable_wf {v : IdVec T} (h : Reachable v) : Wf v := by
  induction h with
  | from_vec l => exact wf_from_vec l
  | insert v w _ ih => exact wf_insert ih w
  | remove v i _ ih => exact wf_remove ih i
  | pop v _ ih => exact wf_pop ih
  | retain v p _ ih => exact wf_retain ih p
  | clear v _ _ => exact wf_clear v
  | pack v v' remaps _ hp _ => exact wf_pack hp

end IdVec

namespace IdVec

variable {T : Type}

/-- Model of `get` is `none` past the end of the element vector. -/
theorem get_eq_none_of_le {v : IdVec T} {index : Nat}
    (h : v.elements.length ≤ index) : get v index = none := by
  unfold get
  by_cases hu : index_is_currently_used v index
  · rw [if_pos hu]
    exact List.getElem?_eq_none h
  · rw [if_neg hu]

/-- Under `Wf`, membership in the unused set decides
`index_is_currently_used` for in-range indices. -/
theorem used_iff_not_unused {v : IdVec T} (hw : Wf v) (index : Nat) :
    index_is_currently_used v index ↔ index ∉ v.unused_indices := by
  constructor
  · rintro (hl | hns)
    · intro hmem
      have := hw.2 index hmem
      omega
    · exact hns
  · exact Or.inr

theorem insert_get_of_ne {v : IdVec T} (hw : Wf v) (w : T) {j : Nat}
    (hj : j ≠ (insert v w).2) : get (insert v w).1 j = get v j := by
  cases hh : v.unused_indices.head? with
  | some i =>
    have hj' : j ≠ i := by
      rw [insert_reuse hh] at hj
      exact hj
    rw [insert_reuse hh]
    unfold get
    have hcond : index_is_currently_used
        { elements := v.elements.set i w, unused_indices := v.unused_indices.erase i } j ↔
        index_is_currently_used v j := by
      unfold index_is_currently_used
      rw [List.length_set, List.mem_erase_of_ne hj']
    have hval : (v.elements.set i w)[j]? = v.elements[j]? :=
      List.getElem?_set_ne (fun h => hj' h.symm)
    exact if_congr hcond hval rfl
  | none =>
    have hj' : j ≠ v.elements.length := by
      rw [insert_append hh] at hj
      exact hj
    rw [insert_append hh]
    unfold get
    have hcond : index_is_currently_used
        { elements := v.elements ++ [w], unused_indices := v.unused_indices } j ↔
        index_is_currently_used v j := by
      rw [used_iff_not_unused hw]
      show (j + 1 = (v.elements ++ [w]).length ∨ j ∉ v.unused_indices) ↔ _
      simp only [List.length_append, List.length_cons, List.length_nil]
      constructor
      · rintro (hl | hns)
        · exact absurd (by omega : j = v.elements.length) hj'
        · exact hns
      · exact Or.inr
    have hval : (v.elements ++ [w])[j]? = v.elements[j]? := by
      rcases Nat.lt_or_ge j v.elements.length with hlt | hge
      · exact List.getElem?_append_left hlt
      · have hge' : v.elements.length < j + 1 := by omega
        rw [List.getElem?_eq_none hge, List.getElem?_eq_none
          (by simp only [List.length_append, List.length_cons, List.length_nil]; omega)]
    exact if_congr hcond hval rfl

theorem insert_contains_of {v : IdVec T} (hw : Wf v) (w : T) {j : Nat}
    (hj : contains_id v j) : contains_id (insert v w).1 j := by
  have hrange : j < v.elements.length := hj.1
  have hnotun : j ∉ v.unused_indices := (used_iff_not_unused hw j).mp hj.2
  cases hh : v.unused_indices.head? with
  | some i =>
    rw [insert_reuse hh]
    refine ⟨?_, ?_⟩
    · show j < (v.elements.set i w).length
      rw [List.length_set]
      exact hrange
    · right
      intro hmem
      exact hnotun (List.erase_subset _ _ hmem)
  | none =>
    rw [insert_append hh]
    refine ⟨?_, Or.inr hnotun⟩
    show j < (v.elements ++ [w]).length
    simp only [List.length_append, List.length_cons, List.length_nil]
    omega

theorem remove_get_aux {v : IdVec T} (hw : Wf v) (index : Nat) :
    get (remove v index) index = none ∧
    ((v.elements.length ≤ index ∨ index ∈ v.unused_indices) → remove v index = v) := by
  unfold remove
  by_cases hr : index_is_in_range v index
  · have hr' : index < v.elements.length := hr
    by_cases hl : index + 1 = v.elements.length
    · rw [if_pos hr, if_pos hl]
      constructor
      · have hlt : ∀ i ∈ v.unused_indices, i < v.elements.dropLast.length := by
          intro i hi
          have := hw.2 i hi
          have h3 : v.elements.dropLast.length = v.elements.length - 1 := List.length_dropLast _
          omega
        have hspec := pop_back_unused_spec v.elements.dropLast v.unused_indices hw.1 hlt
        refine get_eq_none_of_le ?_
        have h3 : v.elements.dropLast.length = v.elements.length - 1 := List.length_dropLast _
        omega
      · intro hcase
        exfalso
        rcases hcase with hge | hmem
        · omega
        · have := hw.2 index hmem
          omega
    · rw [if_pos hr, if_neg hl]
      constructor
      · unfold get
        rw [if_neg]
        intro hused
        rcases hused with h1 | h2
        · exact hl (by simpa using h1)
        · exact h2 (hs_insert_mem.mpr (Or.inl rfl))
      · intro hcase
        rcases hcase with hge | hmem
        · omega
        · show ({ elements := v.elements, unused_indices := hs_insert v.unused_indices index } :
            IdVec T) = v
          rw [hs_insert_of_mem hmem]
  · rw [if_neg hr]
    have hge : v.elements.length ≤ index := Nat.le_of_not_lt hr
    exact ⟨get_eq_none_of_le hge, fun _ => rfl⟩

end IdVec

namespace IdVec

variable {T : Type}

theorem insert_get_self {v : IdVec T} (hw : Wf v) (w : T) :
    get (insert v w).1 (insert v w).2 = some w := by
  cases hh : v.unused_indices.head? with
  | some i =>
    have hmem : i ∈ v.unused_indices := List.mem_of_mem_head? (hh ▸ rfl)
    have hlt : i + 1 < v.elements.length := hw.2 i hmem
    rw [insert_reuse hh]
    unfold get
    have hused : index_is_currently_used
        { elements := v.elements.set i w, unused_indices := v.unused_indices.erase i } i := by
      right
      intro hmem'
      exact ((hw.1.mem_erase_iff).mp hmem').1 rfl
    rw [if_pos hused]
    exact List.getElem?_set_self (by omega)
  | none =>
    rw [insert_append hh]
    unfold get
    have hused : index_is_currently_used
        { elements := v.elements ++ [w], unused_indices := v.unused_indices }
        v.elements.length := by
      left
      simp
    rw [if_pos hused]
    exact List.getElem?_concat_length _ _

/-! ### Counting alive slots -/

theorem length_filter_not_mem {n : Nat} :
    ∀ {s : List Nat}, s.Nodup → (∀ i ∈ s, i < n) →
      ((List.range n).filter (fun i => decide (i ∉ s))).length = n - s.length := by
  intro s
  induction s with
  | nil =>
    intro _ _
    simp
  | cons a t ih =>
    intro hnd hlt
    have hat : a ∉ t := (List.nodup_cons.mp hnd).1
    have hnt : t.Nodup := (List.nodup_cons.mp hnd).2
    have han : a < n := hlt a (List.mem_cons_self a t)
    have hltt : ∀ i ∈ t, i < n := fun i hi => hlt i (List.mem_cons_of_mem a hi)
    have hstep : (List.range n).filter (fun i => decide (i ∉ a :: t)) =
        ((List.range n).filter (fun i => decide (i ∉ t))).filter (fun i => i != a) := by
      rw [List.filter_filter]
      apply List.filter_congr
      intro x _
      by_cases hxa : x = a
      · subst hxa
        simp [hat]
      · by_cases hxt : x ∈ t <;> simp [hxa, hxt]
    have hnfil : ((List.range n).filter (fun i => decide (i ∉ t))).Nodup :=
      (List.nodup_range n).filter _
    have hafil : a ∈ (List.range n).filter (fun i => decide (i ∉ t)) :=
      List.mem_filter.mpr ⟨List.mem_range.mpr han, by simpa using hat⟩
    rw [hstep, ← hnfil.erase_eq_filter a, List.length_erase_of_mem hafil, ih hnt hltt]
    have hts : t.length < n := by
      have hsub : (a :: t) ⊆ List.range n := fun x hx => List.mem_range.mpr (hlt x hx)
      have hle : (a :: t).length ≤ n := by
        simpa using (hnd.subperm hsub).length_le
      simp only [List.length_cons] at hle
      omega
    simp only [List.length_cons]
    omega

end IdVec

namespace IdVec

variable {T : Type}

/-! ### Iterator characterization -/

theorem skip_front_le (s : List Nat) :
    ∀ (fuel f b : Nat), f ≤ skip_front s fuel f b := by
  intro fuel
  induction fuel with
  | zero =>
    intro f b
    exact Nat.le_refl f
  | succ fuel ih =>
    intro f b
    show f ≤ (if f < b ∧ f ∈ s then skip_front s fuel (f + 1) b else f)
    by_cases hc : f < b ∧ f ∈ s
    · rw [if_pos hc]
      exact Nat.le_trans (Nat.le_succ f) (ih (f + 1) b)
    · rw [if_neg hc]

theorem skip_back_le (s : List Nat) :
    ∀ (fuel f b : Nat), skip_back s fuel f b ≤ b := by
  intro fuel
  induction fuel with
  | zero =>
    intro f b
    exact Nat.le_refl b
  | succ fuel ih =>
    intro f b
    show (if f < b ∧ (b - 1) ∈ s then skip_back s fuel f (b - 1) else b) ≤ b
    by_cases hc : f < b ∧ (b - 1) ∈ s
    · rw [if_pos hc]
      exact Nat.le_trans (ih f (b - 1)) (Nat.sub_le b 1)
    · rw [if_neg hc]

theorem skip_front_filter (s : List Nat) :
    ∀ (fuel f b : Nat), b - f ≤ fuel →
      (List.range' f (b - f)).filter (fun i => decide (i ∉ s)) =
        (if skip_front s fuel f b < b then
          skip_front s fuel f b ::
            (List.range' (skip_front s fuel f b + 1)
              (b - (skip_front s fuel f b + 1))).filter (fun i => decide (i ∉ s))
         else []) := by
  intro fuel
  induction fuel with
  | zero =>
    intro f b hle
    have hbf : b ≤ f := by omega
    rw [show b - f = 0 by omega]
    show ([] : List Nat).filter _ = _
    rw [if_neg (by show ¬ f < b; omega : ¬ skip_front s 0 f b < b)]
    rfl
  | succ fuel ih =>
    intro f b hle
    by_cases hc : f < b ∧ f ∈ s
    · have hstep : skip_front s (fuel + 1) f b = skip_front s fuel (f + 1) b := by
        show (if f < b ∧ f ∈ s then skip_front s fuel (f + 1) b else f) = _
        rw [if_pos hc]
      have hsplit : List.range' f (b - f) = f :: List.range' (f + 1) (b - (f + 1)) := by
        rw [show b - f = (b - (f + 1)) + 1 by omega, List.range'_succ]
      rw [hstep, hsplit, List.filter_cons]
      have hdec : (decide (f ∉ s)) = false := by simp [hc.2]
      rw [hdec]
      simp only [Bool.false_eq_true, if_false]
      exact ih (f + 1) b (by omega)
    · have hstep : skip_front s (fuel + 1) f b = f := by
        show (if f < b ∧ f ∈ s then skip_front s fuel (f + 1) b else f) = _
        rw [if_neg hc]
      rw [hstep]
      by_cases hfb : f < b
      · have hfs : f ∉ s := fun hm => hc ⟨hfb, hm⟩
        rw [if_pos hfb]
        have hsplit : List.range' f (b - f) = f :: List.range' (f + 1) (b - (f + 1)) := by
          rw [show b - f = (b - (f + 1)) + 1 by omega, List.range'_succ]
        rw [hsplit, List.filter_cons]
        have hdec : (decide (f ∉ s)) = true := by simp [hfs]
        rw [hdec]
        simp
      · rw [if_neg hfb, show b - f = 0 by omega]
        rfl

theorem skip_back_filter (s : List Nat) :
    ∀ (fuel f b : Nat), b - f ≤ fuel →
      (List.range' f (b - f)).filter (fun i => decide (i ∉ s)) =
        (if f < skip_back s fuel f b then
          ((List.range' f (skip_back s fuel f b - 1 - f)).filter (fun i => decide (i ∉ s))) ++
            [skip_back s fuel f b - 1]
         else []) := by
  intro fuel
  induction fuel with
  | zero =>
    intro f b hle
    have hbf : b ≤ f := by omega
    rw [show b - f = 0 by omega]
    show ([] : List Nat).filter _ = _
    rw [if_neg (by show ¬ f < b; omega : ¬ f < skip_back s 0 f b)]
    rfl
  | succ fuel ih =>
    intro f b hle
    by_cases hc : f < b ∧ (b - 1) ∈ s
    · have hstep : skip_back s (fuel + 1) f b = skip_back s fuel f (b - 1) := by
        show (if f < b ∧ (b - 1) ∈ s then skip_back s fuel f (b - 1) else b) = _
        rw [if_pos hc]
      have hsplit : List.range' f (b - f) = List.range' f (b - 1 - f) ++ [b - 1] := by
        have h1 : b - f = (b - 1 - f) + 1 := by omega
        have h2 : f + (b - 1 - f) = b - 1 := by omega
        rw [h1]
        have := @List.range'_concat 1 f (b - 1 - f)
        simpa [h2] using this
      rw [hstep, hsplit, List.filter_append]
      have hdec : (List.filter (fun i => decide (i ∉ s)) [b - 1]) = [] := by
        simp [hc.2]
      rw [hdec, List.append_nil]
      exact ih f (b - 1) (by omega)
    · have hstep : skip_back s (fuel + 1) f b = b := by
        show (if f < b ∧ (b - 1) ∈ s then skip_back s fuel f (b - 1) else b) = _
        rw [if_neg hc]
      rw [hstep]
      by_cases hfb : f < b
      · have hfs : (b - 1) ∉ s := fun hm => hc ⟨hfb, hm⟩
        rw [if_pos hfb]
        have hsplit : List.range' f (b - f) = List.range' f (b - 1 - f) ++ [b - 1] := by
          have h1 : b - f = (b - 1 - f) + 1 := by omega
          have h2 : f + (b - 1 - f) = b - 1 := by omega
          rw [h1]
          have := @List.range'_concat 1 f (b - 1 - f)
          simpa [h2] using this
        rw [hsplit, List.filter_append]
        have hdec : (List.filter (fun i => decide (i ∉ s)) [b - 1]) = [b - 1] := by
          simp [hfs]
        rw [hdec]
      · rw [if_neg hfb, show b - f = 0 by omega]
        rfl

theorem collect_forward_succ (s : List Nat) (fuel f b : Nat) :
    collect_forward s (fuel + 1) f b =
      (if skip_front s (b - f) f b < b
       then skip_front s (b - f) f b :: collect_forward s fuel (skip_front s (b - f) f b + 1) b
       else []) := by
  show (match iter_next f b s with
        | (some i, f', b') => i :: collect_forward s fuel f' b'
        | (none, _, _) => []) = _
  unfold iter_next
  by_cases h : skip_front s (b - f) f b < b
  · rw [if_pos h]
    simp [h]
  · rw [if_neg h]
    simp [h]

theorem collect_backward_succ (s : List Nat) (fuel f b : Nat) :
    collect_backward s (fuel + 1) f b =
      (if f < skip_back s (b - f) f b
       then (skip_back s (b - f) f b - 1) ::
              collect_backward s fuel f (skip_back s (b - f) f b - 1)
       else []) := by
  show (match iter_next_back f b s with
        | (some i, f', b') => i :: collect_backward s fuel f' b'
        | (none, _, _) => []) = _
  unfold iter_next_back
  by_cases h : f < skip_back s (b - f) f b
  · rw [if_pos h]
    simp [h]
  · rw [if_neg h]
    simp [h]

theorem collect_forward_eq (s : List Nat) :
    ∀ (fuel f b : Nat), b - f ≤ fuel →
      collect_forward s fuel f b =
        (List.range' f (b - f)).filter (fun i => decide (i ∉ s)) := by
  intro fuel
  induction fuel with
  | zero =>
    intro f b hle
    rw [show b - f = 0 by omega]
    rfl
  | succ fuel ih =>
    intro f b hle
    rw [collect_forward_succ]
    have hfil := skip_front_filter s (b - f) f b (Nat.le_refl _)
    by_cases hcb : skip_front s (b - f) f b < b
    · rw [if_pos hcb]
      rw [hfil, if_pos hcb]
      have hge : f ≤ skip_front s (b - f) f b := skip_front_le s (b - f) f b
      rw [ih (skip_front s (b - f) f b + 1) b (by omega)]
    · rw [if_neg hcb]
      rw [hfil, if_neg hcb]

theorem collect_backward_eq (s : List Nat) :
    ∀ (fuel f b : Nat), b - f ≤ fuel →
      collect_backward s fuel f b =
        ((List.range' f (b - f)).filter (fun i => decide (i ∉ s))).reverse := by
  intro fuel
  induction fuel with
  | zero =>
    intro f b hle
    rw [show b - f = 0 by omega]
    rfl
  | succ fuel ih =>
    intro f b hle
    rw [collect_backward_succ]
    have hfil := skip_back_filter s (b - f) f b (Nat.le_refl _)
    by_cases hcb : f < skip_back s (b - f) f b
    · rw [if_pos hcb]
      rw [hfil, if_pos hcb]
      have hle' : skip_back s (b - f) f b ≤ b := skip_back_le s (b - f) f b
      rw [ih f (skip_back s (b - f) f b - 1) (by omega)]
      rw [List.reverse_append]
      rfl
    · rw [if_neg hcb]
      rw [hfil, if_neg hcb]
      rfl

theorem forward_ids_eq (v : IdVec T) : forward_ids v = alive_ids v := by
  unfold forward_ids alive_ids
  rw [collect_forward_eq v.unused_indices v.elements.length 0 v.elements.length (by omega)]
  rw [List.range_eq_range' v.elements.length]
  rfl

theorem backward_ids_eq (v : IdVec T) : backward_ids v = (alive_ids v).reverse := by
  unfold backward_ids alive_ids
  rw [collect_backward_eq v.unused_indices v.elements.length 0 v.elements.length (by omega)]
  rw [List.range_eq_range' v.elements.length]
  rfl

theorem forward_pairs_reverse (v : IdVec T) :
    (forward_pairs v).reverse = backward_pairs v := by
  unfold forward_pairs backward_pairs
  rw [backward_ids_eq, forward_ids_eq, List.filterMap_reverse]

end IdVec


namespace IdVec

variable {T : Type}

/-! ### Packing -/

theorem list_swap_length (l : List T) (i j : Nat) :
    (list_swap l i j).length = l.length := by
  unfold list_swap
  cases hi : l[i]? with
  | none => rfl
  | some a =>
    cases hj : l[j]? with
    | none => rfl
    | some b =>
      simp [List.length_set]

theorem pack_inner_spec {T : Type} :
    ∀ (fuel : Nat) (e : List T) (s : List Nat), s.length ≤ fuel → s.Nodup →
      (∀ i ∈ s, i < e.length) →
      ((pack_inner fuel e s).2.Nodup ∧
       (pack_inner fuel e s).2 ⊆ s ∧
       (∀ i ∈ (pack_inner fuel e s).2, i + 1 < (pack_inner fuel e s).1.length) ∧
       (pack_inner fuel e s).1.length + s.length =
         e.length + (pack_inner fuel e s).2.length ∧
       (pack_inner fuel e s).2.length ≤ s.length) := by
  intro fuel
  induction fuel with
  | zero =>
    intro e s hfuel hnd hlt
    have hs : s = [] := List.eq_nil_of_length_eq_zero (Nat.le_zero.mp hfuel)
    subst hs
    simp [pack_inner]
  | succ fuel ih =>
    intro e s hfuel hnd hlt
    by_cases hcond : (e.length - 1) ∈ s
    · have hstep : pack_inner (fuel + 1) e s =
          pack_inner fuel e.dropLast (s.erase (e.length - 1)) := by
        simp [pack_inner, if_pos hcond]
      have hepos : 0 < e.length := by
        have := hlt _ hcond
        omega
      have hlen : (s.erase (e.length - 1)).length = s.length - 1 :=
        List.length_erase_of_mem hcond
      have hslen : 1 ≤ s.length := List.length_pos.mpr (List.ne_nil_of_mem hcond)
      have hdl : e.dropLast.length = e.length - 1 := List.length_dropLast e
      have hrec := ih e.dropLast (s.erase (e.length - 1))
        (by omega)
        (hnd.erase _)
        (by
          intro i hi
          have hi' := (hnd.mem_erase_iff).mp hi
          have h1 : i < e.length := hlt i hi'.2
          have h2 : i ≠ e.length - 1 := hi'.1
          omega)
      rw [hstep]
      refine ⟨hrec.1, ?_, hrec.2.2.1, ?_, ?_⟩
      · exact fun i hi => List.erase_subset _ _ (hrec.2.1 hi)
      · have := hrec.2.2.2.1
        omega
      · have := hrec.2.2.2.2
        omega
    · have hstep : pack_inner (fuel + 1) e s = (e, s) := by
        simp only [pack_inner, if_neg hcond]
      rw [hstep]
      refine ⟨hnd, fun i hi => hi, ?_, by rfl, Nat.le_refl _⟩
      intro i hi
      have hi' : i ∈ s := hi
      have h1 : i < e.length := hlt i hi'
      show i + 1 < e.length
      have : i ≠ e.length - 1 := fun heq => hcond (heq ▸ hi')
      omega

theorem pack_loop_spec {T : Type} :
    ∀ (fuel : Nat) (e : List T) (s : List Nat), s.length < fuel → s.Nodup →
      (∀ i ∈ s, i + 1 < e.length) →
      ∃ e' remaps, pack_loop fuel e s = some (e', remaps) ∧
        e'.length + s.length = e.length ∧
        (∀ pr ∈ remaps, pr.2 ∈ s) ∧
        (remaps.map Prod.snd).Nodup := by
  intro fuel
  induction fuel with
  | zero =>
    intro e s hfuel _ _
    exact absurd hfuel (Nat.not_lt_zero _)
  | succ fuel ih =>
    intro e s hfuel hnd hlt
    cases s with
    | nil =>
      refine ⟨e, [], rfl, by simp, ?_, by simp⟩
      intro pr hpr
      simp at hpr
    | cons u t =>
      have hu1 : u + 1 < e.length := hlt u (List.mem_cons_self u t)
      have hu : u < e.length := by omega
      have herase : (u :: t).erase u = t := List.erase_cons_head u t
      have hstep : pack_loop (fuel + 1) e (u :: t) =
          (match pack_loop fuel
              (pack_inner ((u :: t).erase u).length
                (list_swap e (e.length - 1) u).dropLast ((u :: t).erase u)).1
              (pack_inner ((u :: t).erase u).length
                (list_swap e (e.length - 1) u).dropLast ((u :: t).erase u)).2 with
           | some q => some (q.1, (e.length - 1, u) :: q.2)
           | none => none) := by
        simp only [pack_loop, if_pos hu]
      have hndt : t.Nodup := (List.nodup_cons.mp hnd).2
      have hut : u ∉ t := (List.nodup_cons.mp hnd).1
      have hdl : (list_swap e (e.length - 1) u).dropLast.length = e.length - 1 := by
        rw [List.length_dropLast, list_swap_length]
      have hprein : ∀ i ∈ t, i < (list_swap e (e.length - 1) u).dropLast.length := by
        intro i hi
        have := hlt i (List.mem_cons_of_mem u hi)
        omega
      have hinner := pack_inner_spec t.length
        (list_swap e (e.length - 1) u).dropLast t (Nat.le_refl _) hndt hprein
      have hrecpre : (pack_inner t.length (list_swap e (e.length - 1) u).dropLast t).2.length
          < fuel := by
        have h1 := hinner.2.2.2.2
        have h2 : (u :: t).length = t.length + 1 := List.length_cons u t
        omega
      have hrec := ih
        (pack_inner t.length (list_swap e (e.length - 1) u).dropLast t).1
        (pack_inner t.length (list_swap e (e.length - 1) u).dropLast t).2
        hrecpre hinner.1 hinner.2.2.1
      obtain ⟨e', remaps, heq, hlen, hmem, hnodup⟩ := hrec
      refine ⟨e', (e.length - 1, u) :: remaps, ?_, ?_, ?_, ?_⟩
      · rw [hstep, herase, heq]
      · have h1 := hinner.2.2.2.1
        have h2 : (u :: t).length = t.length + 1 := List.length_cons u t
        omega
      · intro pr hpr
        rcases List.mem_cons.mp hpr with heq' | hpr'
        · rw [heq']
          exact List.mem_cons_self u t
        · exact List.mem_cons_of_mem u (hinner.2.1 (hmem pr hpr'))
      · rw [List.map_cons]
        refine List.nodup_cons.mpr ⟨?_, hnodup⟩
        intro hmem'
        rcases List.mem_map.mp hmem' with ⟨pr, hpr, hpr2⟩
        have : pr.2 ∈ t := hinner.2.1 (hmem pr hpr)
        rw [hpr2] at this
        exact hut this

/-- Unfolds `pack` on a successful loop run. -/
theorem pack_eq_some {v : IdVec T} {e' : List T} {remaps : List (Nat × Nat)}
    (h : pack_loop (v.unused_indices.length + 1) v.elements v.unused_indices =
      some (e', remaps)) :
    pack v = some ({ elements := e', unused_indices := [] }, remaps) := by
  unfold pack
  rw [h]
  rfl

theorem pack_spec {v : IdVec T} (hw : Wf v) :
    ∃ v' remaps, pack v = some (v', remaps) ∧
      is_packed v' ∧
      len v' = len v ∧
      v'.elements.length = len v' ∧
      (∀ pr ∈ remaps, pr.2 ∈ v.unused_indices) ∧
      (remaps.map Prod.snd).Nodup := by
  have hloop := pack_loop_spec (v.unused_indices.length + 1) v.elements v.unused_indices
    (Nat.lt_succ_self _) hw.1 hw.2
  obtain ⟨e', remaps, heq, hlen, hmem, hnodup⟩ := hloop
  refine ⟨{ elements := e', unused_indices := [] }, remaps, pack_eq_some heq, rfl, ?_, ?_,
    hmem, hnodup⟩
  · show e'.length - ([] : List Nat).length = v.elements.length - v.unused_indices.length
    simp only [List.length_nil, Nat.sub_zero]
    omega
  · show e'.length = e'.length - ([] : List Nat).length
    simp

end IdVec

namespace IdVec

variable {T : Type}

theorem insert_ret_not_contained {v : IdVec T} (hw : Wf v) (w : T) {j : Nat}
    (hj : contains_id v j) : j ≠ (insert v w).2 := by
  cases hh : v.unused_indices.head? with
  | some i =>
    rw [insert_reuse hh]
    intro heq
    have heq' : j = i := heq
    have hmem : i ∈ v.unused_indices := List.mem_of_mem_head? (hh ▸ rfl)
    have hnm : j ∉ v.unused_indices := (used_iff_not_unused hw j).mp hj.2
    rw [heq'] at hnm
    exact hnm hmem
  | none =>
    rw [insert_append hh]
    intro heq
    have heq' : j = v.elements.length := heq
    have : j < v.elements.length := hj.1
    omega

end IdVec

/-- Claim C1 (code bug evidence): `retain` over `[1,2,3,4,5,6]` with the
predicate "element is even" keeps exactly the elements for which the
predicate returned FALSE: the survivors, in order, are `[1, 3, 5]` and
not the `[2, 4, 6]` the claim requires — the source tombstones the
slots the predicate approves (no negation on `predicate(..)` in the
scan) while its own doc comment promises to retain them. -/
theorem retain_keeps_predicate_false_slots :
    IdVec.elements_list
        (IdVec.retain (IdVec.from_vec [1, 2, 3, 4, 5, 6]) (fun _ e => e % 2 == 0)) =
      [1, 3, 5] ∧
    IdVec.elements_list
        (IdVec.retain (IdVec.from_vec [1, 2, 3, 4, 5, 6]) (fun _ e => e % 2 == 0)) ≠
      [2, 4, 6] := by
  constructor
  · decide
  · decide

/-- Claim C2 (code bug evidence): on the empty hash-set marker, index
`0` is alive (`element_is_used` holds), yet `mark_element_used 0 true`
returns `false` — `HashSet::remove` reports whether the index was
previously *dead*, the negation of the documented "returns if the
element was used prior to calling this fn". -/
theorem hash_marker_mark_alive_returns_previous_deadness :
    IdVec.hash_marker_element_is_used ⟨[]⟩ 0 ∧
    (IdVec.hash_marker_mark_element_used ⟨[]⟩ 0 true).2 = false := by
  constructor
  · decide
  · decide

/-- Claim C3: for every well-formed arena, `pack` succeeds; afterwards
the arena is packed, `len` is unchanged, the backing vector's length
equals `len`, and every remap pair the callback receives has a new
index that was a dead slot before the call, each dead slot being the
target of at most one relocation. -/
theorem pack_postcondition {T : Type} {v : IdVec T} (hw : IdVec.Wf v) :
    ∃ v' remaps, IdVec.pack v = some (v', remaps) ∧
      IdVec.is_packed v' ∧
      IdVec.len v' = IdVec.len v ∧
      v'.elements.length = IdVec.len v' ∧
      (∀ pr ∈ remaps, pr.2 ∈ v.unused_indices) ∧
      (remaps.map Prod.snd).Nodup :=
  IdVec.pack_spec hw

/-- Witness for C3 at the arena `[10,20,30,40]` with slot 1 dead. -/
theorem pack_postcondition_witness :
    IdVec.Wf { elements := [10, 20, 30, 40], unused_indices := [1] : IdVec Nat } ∧
    ∃ v' remaps,
      IdVec.pack { elements := [10, 20, 30, 40], unused_indices := [1] : IdVec Nat } =
        some (v', remaps) ∧
      IdVec.is_packed v' ∧
      IdVec.len v' =
        IdVec.len { elements := [10, 20, 30, 40], unused_indices := [1] : IdVec Nat } ∧
      v'.elements.length = IdVec.len v' ∧
      (∀ pr ∈ remaps, pr.2 ∈ [1]) ∧
      (remaps.map Prod.snd).Nodup :=
  ⟨by decide, pack_postcondition (by decide)⟩

/-- Claim C4: for every well-formed arena and value, the handle
returned by `insert` immediately `get`s back exactly that value,
whether a dead slot was reused or the vector grew. -/
theorem insert_get_round_trip {T : Type} {v : IdVec T} (hw : IdVec.Wf v) (w : T) :
    IdVec.get (IdVec.insert v w).1 (IdVec.insert v w).2 = some w :=
  IdVec.insert_get_self hw w

/-- Witness for C4 on an arena with a dead slot to reuse. -/
theorem insert_get_round_trip_witness :
    IdVec.Wf { elements := [5, 6, 7], unused_indices := [1] : IdVec Nat } ∧
    IdVec.get (IdVec.insert { elements := [5, 6, 7], unused_indices := [1] : IdVec Nat } 9).1
        (IdVec.insert { elements := [5, 6, 7], unused_indices := [1] : IdVec Nat } 9).2 =
      some 9 :=
  ⟨by decide, insert_get_round_trip (by decide) 9⟩

/-- Claim C5: in every arena reachable through the public API from a
construction, if the element vector is non-empty then its last slot is
not marked unused (invariant I1). -/
theorem reachable_last_slot_alive {T : Type} {v : IdVec T} (h : IdVec.Reachable v)
    (hne : v.elements ≠ []) : (v.elements.length - 1) ∉ v.unused_indices := by
  intro hmem
  have h1 := (IdVec.reachable_wf h).2 _ hmem
  have h2 : 0 < v.elements.length := List.length_pos.mpr hne
  omega

/-- Witness for C5 at the arena obtained by removing index 1 from
`from_vec [1,2,3]`. -/
theorem reachable_last_slot_alive_witness :
    IdVec.Reachable (IdVec.remove (IdVec.from_vec [1, 2, 3] : IdVec Nat) 1) ∧
    (IdVec.remove (IdVec.from_vec [1, 2, 3] : IdVec Nat) 1).elements ≠ [] ∧
    ((IdVec.remove (IdVec.from_vec [1, 2, 3] : IdVec Nat) 1).elements.length - 1) ∉
      (IdVec.remove (IdVec.from_vec [1, 2, 3] : IdVec Nat) 1).unused_indices :=
  ⟨IdVec.Reachable.remove _ 1 (IdVec.Reachable.from_vec _), by decide,
   reachable_last_slot_alive (IdVec.Reachable.remove _ 1 (IdVec.Reachable.from_vec _))
     (by decide)⟩

/-- Claim C6: in every reachable arena, `len` equals the number of
alive slots, and `is_empty` holds exactly when that number is zero. -/
theorem reachable_len_counts_alive {T : Type} {v : IdVec T} (h : IdVec.Reachable v) :
    IdVec.len v = (IdVec.alive_ids v).length ∧
    (IdVec.is_empty v ↔ (IdVec.alive_ids v).length = 0) := by
  have hw := IdVec.reachable_wf h
  have hlt : ∀ i ∈ v.unused_indices, i < v.elements.length := by
    intro i hi
    have := hw.2 i hi
    omega
  have h1 : (IdVec.alive_ids v).length = IdVec.len v :=
    IdVec.length_filter_not_mem hw.1 hlt
  refine ⟨h1.symm, ?_⟩
  show IdVec.len v = 0 ↔ (IdVec.alive_ids v).length = 0
  rw [h1]

/-- Witness for C6 at the arena obtained by removing index 1 from
`from_vec [1,2,3]`. -/
theorem reachable_len_counts_alive_witness :
    IdVec.Reachable (IdVec.remove (IdVec.from_vec [1, 2, 3] : IdVec Nat) 1) ∧
    (IdVec.len (IdVec.remove (IdVec.from_vec [1, 2, 3] : IdVec Nat) 1) =
      (IdVec.alive_ids (IdVec.remove (IdVec.from_vec [1, 2, 3] : IdVec Nat) 1)).length ∧
    (IdVec.is_empty (IdVec.remove (IdVec.from_vec [1, 2, 3] : IdVec Nat) 1) ↔
      (IdVec.alive_ids (IdVec.remove (IdVec.from_vec [1, 2, 3] : IdVec Nat) 1)).length = 0)) :=
  ⟨IdVec.Reachable.remove _ 1 (IdVec.Reachable.from_vec _),
   reachable_len_counts_alive (IdVec.Reachable.remove _ 1 (IdVec.Reachable.from_vec _))⟩

/-- Claim C7: after `remove h`, `get h` is `none`; and when `h` is out
of range or already dead, `remove` leaves the arena unchanged. -/
theorem remove_then_get_none {T : Type} {v : IdVec T} (hw : IdVec.Wf v) (index : Nat) :
    IdVec.get (IdVec.remove v index) index = none ∧
    ((v.elements.length ≤ index ∨ index ∈ v.unused_indices) →
      IdVec.remove v index = v) :=
  IdVec.remove_get_aux hw index

/-- Witness for C7: removing the already-dead index 1. -/
theorem remove_then_get_none_witness :
    IdVec.Wf { elements := [1, 2, 3], unused_indices := [1] : IdVec Nat } ∧
    (IdVec.get (IdVec.remove { elements := [1, 2, 3], unused_indices := [1] : IdVec Nat } 1)
        1 = none ∧
    (({ elements := [1, 2, 3], unused_indices := [1] : IdVec Nat }.elements.length ≤ 1 ∨
        1 ∈ ({ elements := [1, 2, 3], unused_indices := [1] : IdVec Nat}).unused_indices) →
      IdVec.remove { elements := [1, 2, 3], unused_indices := [1] : IdVec Nat } 1 =
        { elements := [1, 2, 3], unused_indices := [1] : IdVec Nat })) :=
  ⟨by decide, remove_then_get_none (by decide) 1⟩

/-- Claim C8: the reversed forward iteration equals the backward
iteration, and forward iteration visits exactly the alive slots in
ascending index order. -/
theorem iteration_symmetry {T : Type} (v : IdVec T) :
    (IdVec.forward_pairs v).reverse = IdVec.backward_pairs v ∧
    IdVec.forward_ids v = IdVec.alive_ids v :=
  ⟨IdVec.forward_pairs_reverse v, IdVec.forward_ids_eq v⟩

/-- Claim C9: abandoning a draining iterator after consuming any `k`
items leaves the arena empty: `len` is zero and the tracker holds no
dead indices. -/
theorem drain_and_abort_empties {T : Type} (v : IdVec T) (k : Nat) :
    IdVec.len (IdVec.drain_and_abort v k).1 = 0 ∧
    IdVec.is_packed (IdVec.drain_and_abort v k).1 := by
  unfold IdVec.drain_and_abort
  rcases h : IdVec.drain_take k (IdVec.drain_elements v) with ⟨taken, st⟩
  exact ⟨rfl, rfl⟩

/-- Claim C10: `insert` is frame-preserving — every handle valid before
stays valid with the same value, and every index other than the
returned one reads exactly as before. -/
theorem insert_preserves_existing {T : Type} {v : IdVec T} (hw : IdVec.Wf v) (w : T) :
    (∀ j, IdVec.contains_id v j →
      IdVec.contains_id (IdVec.insert v w).1 j ∧
      IdVec.get (IdVec.insert v w).1 j = IdVec.get v j) ∧
    (∀ j, j ≠ (IdVec.insert v w).2 →
      IdVec.get (IdVec.insert v w).1 j = IdVec.get v j) := by
  constructor
  · intro j hj
    exact ⟨IdVec.insert_contains_of hw w hj,
      IdVec.insert_get_of_ne hw w (IdVec.insert_ret_not_contained hw w hj)⟩
  · intro j hj
    exact IdVec.insert_get_of_ne hw w hj

/-- Witness for C10: inserting into an arena with dead slot 1 leaves
index 0 reading as before. -/
theorem insert_preserves_existing_witness :
    IdVec.Wf { elements := [7, 8, 9], unused_indices := [1] : IdVec Nat } ∧
    IdVec.get (IdVec.insert { elements := [7, 8, 9], unused_indices := [1] : IdVec Nat } 4).1
        0 =
      IdVec.get { elements := [7, 8, 9], unused_indices := [1] : IdVec Nat } 0 :=
  ⟨by decide, (insert_preserves_existing (by decide) 4).2 0 (by decide)⟩
